import Mathlib

/-!
Verification of the single-header XML parser `xml.h` (mrvladus/xml.h).

The C library parses a NUL-terminated buffer in one left-to-right pass
(`xml_parse_string`, helpers `parse_tag`, `parse_comment`,
`parse_processing_instruction`) building a tree of `XMLNode` values, and
offers query operations over the finished tree (`xml_node_child_at`,
`xml_node_find_tag`, `xml_node_find_by_path`, `xml_node_attr`).

Modelling choices:
* The buffer is a `List Char`; `xml_parse_string` appends the terminating
  NUL.  A scanning position `idx` is represented by the suffix of the
  buffer starting at `idx`; advancing the cursor is taking the tail.  The
  empty suffix denotes a position strictly past the terminating NUL, so
  reading from it is an out-of-bounds access.
* Results live in `PR α`: `.ok` is a normal result, `.ub` marks undefined
  behaviour (reading outside the buffer, dereferencing a NULL node), and
  `.out` means the fuel given to a loop ran out (the C loops have no such
  bound; `.out` never occurs with enough fuel).
* The scanning `while` loops of the C code become structurally recursive
  functions on the suffix.  The loops that inspect `xml[idx-1]`/`xml[idx-2]`
  (comment/instruction terminators, the escaped-quote test) receive the
  previously consumed character(s) as extra arguments, which are exactly
  the buffer characters the C code re-reads.
* `curr_node` and the parent chain become an explicit stack of open nodes
  (`PState.stack`, innermost first).  The C code appends a node to its
  parent's child list at creation time; the model attaches it when the
  node is popped, which yields the same child lists in the same order
  because a node's position among its siblings is fixed by the order in
  which the parser returns to the parent.  Open nodes remaining at the end
  of the input are folded into their parents by `closeStack`, matching the
  already-performed attachment in C.  Popping the synthetic ROOT node
  (possible, since end tags pop unconditionally) records the finished root
  in `rootDone`; nodes created afterwards have a NULL parent in C and are
  unreachable from the returned root, so popping them discards them.
-/

namespace XmlH

/-- The NUL terminator character. -/
def nulChar : Char := Char.ofNat 0

/-- C `isspace` in the default locale: space, tab, newline, vertical tab,
form feed, carriage return. -/
def isSpaceC (c : Char) : Bool :=
  c = ' ' || c = '\t' || c = '\n' || c = Char.ofNat 11 || c = Char.ofNat 12 || c = '\r'

/-- An XML node: `struct XMLNode` of xml.h.  `tag`/`text` are `NULL`-able
C strings, hence `Option`.  The parent pointer is represented by the
position of the node inside the tree / the parser's stack of open nodes. -/
inductive XMLNode : Type where
  | mk (tag : Option String) (text : Option String)
       (attrs : List (String × String)) (children : List XMLNode)

/-- Tag of a node. -/
def XMLNode.tag : XMLNode → Option String
  | .mk t _ _ _ => t

/-- Inner text of a node. -/
def XMLNode.text : XMLNode → Option String
  | .mk _ tx _ _ => tx

/-- Attribute list of a node, in insertion order. -/
def XMLNode.attrs : XMLNode → List (String × String)
  | .mk _ _ a _ => a

/-- Children of a node, in document order. -/
def XMLNode.children : XMLNode → List XMLNode
  | .mk _ _ _ ch => ch

/-- Result of running a piece of the parser: a value, undefined behaviour
(out-of-bounds read or NULL dereference), or fuel exhaustion. -/
inductive PR (α : Type) : Type where
  | ok (a : α)
  | ub
  | out

/-- Parser state: the stack of currently open nodes (`curr_node` is the
head, the synthetic ROOT is at the bottom until it is popped), and the
finished root once the ROOT node itself has been popped by an end tag. -/
structure PState : Type where
  stack : List XMLNode
  rootDone : Option XMLNode

/-- Model of `xml_node_new` (xml.h:127): push a fresh empty node; it becomes the
current node.  (Attachment to the parent's child list is performed when
the node is popped, see the module comment.) -/
def xml_node_new (st : PState) : PState :=
  ⟨XMLNode.mk none none [] [] :: st.stack, st.rootDone⟩

/-- Set the tag of the current node (xml.h:295).  Dereferences the current
node, so an empty stack (a NULL `curr_node`) is undefined behaviour. -/
def setTag (st : PState) (t : List Char) : PR PState :=
  match st.stack with
  | [] => .ub
  | .mk _ tx a ch :: rest => .ok ⟨XMLNode.mk (some (String.mk t)) tx a ch :: rest, st.rootDone⟩

/-- Set the inner text of the current node (xml.h:313). -/
def setText (st : PState) (s : List Char) : PR PState :=
  match st.stack with
  | [] => .ub
  | .mk t _ a ch :: rest => .ok ⟨XMLNode.mk t (some (String.mk s)) a ch :: rest, st.rootDone⟩

/-- Model of `xml_node_add_attr` (xml.h:140): append a key/value pair to the
current node's attribute list. -/
def addAttr (st : PState) (k v : List Char) : PR PState :=
  match st.stack with
  | [] => .ub
  | .mk t tx a ch :: rest =>
      .ok ⟨XMLNode.mk t tx (a ++ [(String.mk k, String.mk v)]) ch :: rest, st.rootDone⟩

/-- Model of `*curr_node = (*curr_node)->parent` (xml.h:284, 320, 334, 363): close
the current node.  With a NULL `curr_node` (stack already empty) this
dereferences NULL.  Popping the bottommost node finishes the root (first
time: the ROOT node itself) or discards an orphan created after the root
was closed. -/
def popNode (st : PState) : PR PState :=
  match st.stack with
  | [] => .ub
  | [n] => .ok ⟨[], some (st.rootDone.getD n)⟩
  | n :: XMLNode.mk t tx a ch :: rest =>
      .ok ⟨XMLNode.mk t tx a (ch ++ [n]) :: rest, st.rootDone⟩

/-- Model of `while (isspace(xml[*idx])) (*idx)++` (xml.h:274, 301, 329, 357, 394). -/
def skipSpacesW : List Char → PR (List Char)
  | [] => .ub
  | c :: rest => if isSpaceC c then skipSpacesW rest else .ok (c :: rest)

/-- Model of `while (!(isspace(xml[*idx]) || xml[*idx] == '>' || xml[*idx] == '/'))`
(xml.h:293): scan the tag name; returns the name and the suffix at the
stopping character. -/
def scanTagNameW : List Char → PR (List Char × List Char)
  | [] => .ub
  | c :: rest =>
    if isSpaceC c || c = '>' || c = '/' then .ok ([], c :: rest)
    else
      match scanTagNameW rest with
      | .ok (t, r) => .ok (c :: t, r)
      | .ub => .ub
      | .out => .out

/-- Model of `while (xml[*idx] != '>') (*idx)++; (*idx)++` (xml.h:279-281, 321-323,
335-337, 364-366): skip to just past the next `>`. -/
def scanToGtW : List Char → PR (List Char)
  | [] => .ub
  | c :: rest => if c = '>' then .ok rest else scanToGtW rest

/-- Model of `while (xml[*idx] != '=') (*idx)++` then skip the `=` (xml.h:344-347):
scan the attribute key; returns the key and the suffix after the `=`. -/
def scanEqW : List Char → PR (List Char × List Char)
  | [] => .ub
  | c :: rest =>
    if c = '=' then .ok ([], rest)
    else
      match scanEqW rest with
      | .ok (k, r) => .ok (c :: k, r)
      | .ub => .ub
      | .out => .out

/-- Model of `while (xml[*idx] != quote || (xml[*idx] == quote && xml[*idx-1] == '\\'))`
then skip the quote (xml.h:351-354).  `prev` is the character before the
current one (the C code re-reads it from the buffer).  Returns the scanned
value and the suffix after the terminating quote.  Note that the scan
starts at `value_start`, which the C code leaves at the position of the
opening quote itself. -/
def scanValueW (quote : Char) : Char → List Char → PR (List Char × List Char)
  | _, [] => .ub
  | prev, c :: rest =>
    if c = quote && !(prev = '\\') then .ok ([], rest)
    else
      match scanValueW quote c rest with
      | .ok (v, r) => .ok (c :: v, r)
      | .ub => .ub
      | .out => .out

/-- Model of `while (!(xml[*idx] == '>' && xml[*idx-1] == '-' && xml[*idx-2] == '-'))`
then `(*idx)++` (xml.h:260-262).  `p1`, `p2` are the previous two
characters. -/
def commentEndW : Char → Char → List Char → PR (List Char)
  | _, _, [] => .ub
  | p1, p2, c :: rest =>
    if c = '>' && p1 = '-' && p2 = '-' then .ok rest
    else commentEndW c p1 rest

/-- Model of `while (!(xml[*idx] == '>' && xml[*idx-1] == '?'))` then `(*idx)++`
(xml.h:246-248).  `p1` is the previous character. -/
def piEndW : Char → List Char → PR (List Char)
  | _, [] => .ub
  | p1, c :: rest =>
    if c = '>' && p1 = '?' then .ok rest
    else piEndW c rest

/-- Model of `while (!(xml[*idx+1] == '<' && xml[*idx+2] == '/')) (*idx)++`
(xml.h:311-312): scan the inner text.  Returns the text
(`xml[text_start .. idx]` inclusive, as `strndup`ed on xml.h:313) and the
suffix at the final position `idx` (the main loop then advances once onto
the `<`). -/
def textEndW : List Char → PR (List Char × List Char)
  | [] => .ub
  | [_] => .ub
  | c :: d :: rest =>
    if d = '<' then
      match rest with
      | [] => .ub
      | e :: _ =>
        if e = '/' then .ok ([c], c :: d :: rest)
        else
          match textEndW (d :: rest) with
          | .ok (t, r) => .ok (c :: t, r)
          | .ub => .ub
          | .out => .out
    else
      match textEndW (d :: rest) with
      | .ok (t, r) => .ok (c :: t, r)
      | .ub => .ub
      | .out => .out

/-- Model of `parse_comment` (xml.h:257-267): recognise `!--`, then scan to the
`-->` terminator.  `.ok none` means ("not a comment") (the C function
returns false).  The terminator scan starts at the `!`; its first three
steps can never match (`!`, `-`, `-` are not `>`), after which the two
previously read characters are `-`, `-`. -/
def parse_comment : List Char → PR (Option (List Char))
  | [] => .ub
  | c :: rest =>
    if c = '!' then
      match rest with
      | [] => .ub
      | d :: rest2 =>
        if d = '-' then
          match rest2 with
          | [] => .ub
          | e :: rest3 =>
            if e = '-' then
              match commentEndW '-' '-' rest3 with
              | .ok r => .ok (some r)
              | .ub => .ub
              | .out => .out
            else .ok none
        else .ok none
    else .ok none

/-- Model of `parse_processing_instruction` (xml.h:242-253): recognise `?`, then
scan to the `?>` terminator.  The scan starts at the `?`, which cannot
match the terminator test, after which the previously read character is
`?`. -/
def parse_processing_instruction : List Char → PR (Option (List Char))
  | [] => .ub
  | c :: rest =>
    if c = '?' then
      match piEndW '?' rest with
      | .ok r => .ok (some r)
      | .ub => .ub
      | .out => .out
    else .ok none

/-- The attribute loop of `parse_tag` (xml.h:341-359):
`while (xml[*idx] != '>' && xml[*idx] != '/')` scan a key up to `=`, read
the quote character, scan the value (starting at the opening quote, with
`=` as the preceding character), record the pair, skip spaces, repeat.
Returns the suffix at the loop's stopping character and the updated
state. -/
def parseAttrs : Nat → List Char → PState → PR (List Char × PState)
  | 0, _, _ => .out
  | _ + 1, [], _ => .ub
  | f + 1, c :: rest, st =>
    if c = '>' || c = '/' then .ok (c :: rest, st)
    else
      match scanEqW (c :: rest) with
      | .ub => .ub
      | .out => .out
      | .ok (key, w1) =>
        match w1 with
        | [] => .ub
        | q :: r1 =>
          match scanValueW q '=' (q :: r1) with
          | .ub => .ub
          | .out => .out
          | .ok (v, w2) =>
            match addAttr st key v with
            | .ub => .ub
            | .out => .out
            | .ok st1 =>
              match skipSpacesW w2 with
              | .ub => .ub
              | .out => .out
              | .ok w3 => parseAttrs f w3 st1

/-- Model of `parse_tag` (xml.h:272-376).  Returns the C function's boolean result
(false for end tags and self-closing tags, i.e. "call continue"), the
suffix at the final cursor position, and the updated state. -/
def parse_tag : Nat → List Char → PState → PR (Bool × List Char × PState)
  | 0, _, _ => .out
  | f + 1, w, st =>
    match skipSpacesW w with
    | .ub => .ub
    | .out => .out
    | .ok w0 =>
      match w0 with
      | [] => .ub
      | c :: rest =>
        if c = '/' then
          -- end tag </tag> (xml.h:278-286)
          match scanToGtW (c :: rest) with
          | .ub => .ub
          | .out => .out
          | .ok w1 =>
            match popNode st with
            | .ub => .ub
            | .out => .out
            | .ok st1 => .ok (false, w1, st1)
        else
          -- create a node with the current node as parent (xml.h:289)
          let st1 := xml_node_new st
          match scanTagNameW (c :: rest) with
          | .ub => .ub
          | .out => .out
          | .ok (tname, w1) =>
            match setTag st1 tname with
            | .ub => .ub
            | .out => .out
            | .ok st2 =>
              match w1 with
              | [] => .ub
              | c2 :: r2 =>
                if c2 = '>' then
                  -- start tag without attributes (xml.h:297-316)
                  match skipSpacesW r2 with
                  | .ub => .ub
                  | .out => .out
                  | .ok w3 =>
                    match w3 with
                    | [] => .ub
                    | c3 :: r3 =>
                      if c3 = '<' then
                        match r3 with
                        | [] => .ub
                        | c4 :: _ =>
                          if c4 = '/' then
                            -- empty tag <tag></tag> (xml.h:304-305)
                            .ok (true, c3 :: r3, st2)
                          else
                            -- sub-tag: recurse at the current position (xml.h:307-308)
                            match parse_tag f (c3 :: r3) st2 with
                            | .ub => .ub
                            | .out => .out
                            | .ok (_, w4, st3) =>
                              -- inner text (xml.h:310-315)
                              match textEndW w4 with
                              | .ub => .ub
                              | .out => .out
                              | .ok (txt, w5) =>
                                match setText st3 txt with
                                | .ub => .ub
                                | .out => .out
                                | .ok st4 => .ok (true, w5, st4)
                      else
                        match textEndW (c3 :: r3) with
                        | .ub => .ub
                        | .out => .out
                        | .ok (txt, w5) =>
                          match setText st2 txt with
                          | .ub => .ub
                          | .out => .out
                          | .ok st4 => .ok (true, w5, st4)
                else if c2 = '/' then
                  -- self-closing tag <tag/> (xml.h:318-325)
                  match popNode st2 with
                  | .ub => .ub
                  | .out => .out
                  | .ok st3 =>
                    match scanToGtW (c2 :: r2) with
                    | .ub => .ub
                    | .out => .out
                    | .ok w3 => .ok (false, w3, st3)
                else if isSpaceC c2 then
                  -- <tag ... (xml.h:327-373)
                  match skipSpacesW (c2 :: r2) with
                  | .ub => .ub
                  | .out => .out
                  | .ok w3 =>
                    match w3 with
                    | [] => .ub
                    | c3 :: r3 =>
                      if c3 = '/' then
                        -- self-closing with spaces before the / (xml.h:332-339)
                        match popNode st2 with
                        | .ub => .ub
                        | .out => .out
                        | .ok st3 =>
                          match scanToGtW (c3 :: r3) with
                          | .ub => .ub
                          | .out => .out
                          | .ok w4 => .ok (false, w4, st3)
                      else
                        match parseAttrs f (c3 :: r3) st2 with
                        | .ub => .ub
                        | .out => .out
                        | .ok (w4, st3) =>
                          match w4 with
                          | [] => .ub
                          | c4 :: r4 =>
                            if c4 = '/' then
                              -- self-closing with attributes (xml.h:361-367)
                              match popNode st3 with
                              | .ub => .ub
                              | .out => .out
                              | .ok st4 =>
                                match scanToGtW (c4 :: r4) with
                                | .ub => .ub
                                | .out => .out
                                | .ok w5 => .ok (false, w5, st4)
                            else if c4 = '>' then
                              -- start tag with attributes (xml.h:369-372)
                              .ok (true, r4, st3)
                            else
                              -- fall-through return (xml.h:375, unreachable)
                              .ok (true, c4 :: r4, st3)
                else
                  -- fall-through return (xml.h:375, unreachable)
                  .ok (true, c2 :: r2, st2)

/-- The scan loop of `xml_parse_string` (xml.h:384-404):
`while (xml[idx] != '\0')`: skip whitespace; on `<` advance, skip spaces,
try comment, processing instruction, then `parse_tag` (continuing without
the trailing `idx++` when it returns false); otherwise `idx++`. -/
def parseLoop : Nat → List Char → PState → PR PState
  | 0, _, _ => .out
  | _ + 1, [], _ => .ub
  | f + 1, c :: rest, st =>
    if c = nulChar then .ok st
    else if isSpaceC c then parseLoop f rest st
    else if c = '<' then
      match skipSpacesW rest with
      | .ub => .ub
      | .out => .out
      | .ok w1 =>
        match parse_comment w1 with
        | .ub => .ub
        | .out => .out
        | .ok (some w2) => parseLoop f w2 st
        | .ok none =>
          match parse_processing_instruction w1 with
          | .ub => .ub
          | .out => .out
          | .ok (some w2) => parseLoop f w2 st
          | .ok none =>
            match parse_tag f w1 st with
            | .ub => .ub
            | .out => .out
            | .ok (ret, w2, st1) =>
              if ret then parseLoop f w2.tail st1 else parseLoop f w2 st1
    else parseLoop f rest st

/-- Fold the remaining open nodes into their parents (each is already a
child of its parent in C, having been attached by `xml_node_new`); the
first argument is the topmost open node, the result is the bottommost
node. -/
def closeStack : XMLNode → List XMLNode → XMLNode
  | n, [] => n
  | n, XMLNode.mk t tx a ch :: rest => closeStack (XMLNode.mk t tx a (ch ++ [n])) rest

/-- The node returned by `xml_parse_string`: the original ROOT node, in
whatever state it was left (popped and finished, or still open on the
stack with the other unclosed nodes). -/
def finalize (st : PState) : Option XMLNode :=
  match st.rootDone with
  | some r => some r
  | none =>
    match st.stack with
    | [] => none
    | n :: rest => some (closeStack n rest)

/-- The initial state: a single open node with tag ("ROOT") and NULL parent
(xml.h:380-382). -/
def rootInit : PState :=
  ⟨[XMLNode.mk (some ("ROOT")) none [] []], none⟩

/-- Model of `xml_parse_string` (xml.h:378-407), on the buffer `xml ++ [NUL]`.
The C function always ends with `return root`; in the model a normal
return is `.ok root`, while `.ub` marks executions in which the C code
reads outside the buffer or dereferences NULL before reaching the
return. -/
def xml_parse_string (xml : List Char) (fuel : Nat) : PR XMLNode :=
  match parseLoop fuel (xml ++ [nulChar]) rootInit with
  | .ub => .ub
  | .out => .out
  | .ok st =>
    match finalize st with
    | some r => .ok r
    | none => .ub

/-! ## Query operations on a finished tree -/

/-- Model of `2^64`, the number of `size_t` values on the reference platform. -/
def W64 : Nat := 2 ^ 64

/-- Possible outcomes of `xml_node_child_at`: the C function returns NULL,
returns a child pointer, or reads `children->data[index]` out of the
initialised range (an uninitialised or out-of-bounds slot). -/
inductive ChildAtRes : Type where
  | null
  | found (n : XMLNode)
  | oobRead

/-- Model of `xml_node_child_at` (xml.h:147-151):
`if (index > node->children->len - 1) return NULL;` with `size_t`
arithmetic (so `len - 1` wraps around to `2^64 - 1` when `len = 0`,
assuming `len < 2^64`), then `return node->children->data[index]`. -/
def xml_node_child_at (node : XMLNode) (index : Nat) : ChildAtRes :=
  if index > (node.children.length + W64 - 1) % W64 then .null
  else
    match node.children.get? index with
    | some c => .found c
    | none => .oobRead

/-- Occurrence of `needle` as a prefix of some suffix of `hay`. -/
def strstrL (needle : List Char) : List Char → Bool
  | [] => needle.isEmpty
  | c :: rest => needle.isPrefixOf (c :: rest) || strstrL needle rest

/-- Model of `strstr(hay, needle) != NULL`: `needle` occurs as a contiguous
substring of `hay` (always true for the empty needle). -/
def strstrB (hay needle : String) : Bool :=
  strstrL needle.data hay.data

/-- The match test of `xml_node_find_tag` (xml.h:157-158):
`node->tag && ((exact && strcmp(node->tag, tag) == 0) ||
(!exact && strstr(node->tag, tag) != NULL))`. -/
def tagMatchB (tg : String) (exact : Bool) (node : XMLNode) : Bool :=
  match node.tag with
  | none => false
  | some t => (exact && t == tg) || (!exact && strstrB t tg)

mutual

/-- Model of `xml_node_find_tag` (xml.h:153-169): if the current node's tag
matches, return it, otherwise search the children left to right and
return the first match.  (The C NULL-argument guard on xml.h:154 is
outside the model: `node` and `tag` are values here.) -/
def xml_node_find_tag (node : XMLNode) (tg : String) (exact : Bool) : Option XMLNode :=
  match node with
  | .mk t tx a ch =>
    if tagMatchB tg exact (.mk t tx a ch) then some (.mk t tx a ch)
    else findTagChildren ch tg exact

/-- The child loop of `xml_node_find_tag` (xml.h:161-166). -/
def findTagChildren : List XMLNode → String → Bool → Option XMLNode
  | [], _, _ => none
  | c :: rest, tg, exact =>
    match xml_node_find_tag c tg exact with
    | some r => some r
    | none => findTagChildren rest tg exact

end

/-- The segments produced by the `strtok(path, "/")` loop of
`xml_node_find_by_path` (xml.h:177, 194): maximal nonempty runs of
non-`/` characters, in order (leading, trailing and repeated `/` produce
no segments). -/
def pathSegs (path : String) : List String :=
  (path.splitOn ("/")).filter (fun s => !s.isEmpty)

/-- The child scan of `xml_node_find_by_path` (xml.h:181-189): the first
direct child whose tag matches the segment
(`strcmp(child->tag, segment) == 0` when exact, otherwise
`strstr(child->tag, segment) != NULL`).  A child with a NULL tag is passed
to `strcmp`/`strstr`, which is undefined behaviour. -/
def findChildMatch : List XMLNode → String → Bool → PR (Option XMLNode)
  | [], _, _ => .ok none
  | c :: rest, seg, exact =>
    match c.tag with
    | none => .ub
    | some t =>
      if (exact && t == seg) || (!exact && strstrB t seg) then .ok (some c)
      else findChildMatch rest seg exact

/-- The `while (segment && current)` loop of `xml_node_find_by_path`
(xml.h:179-195): descend through the segments; return NULL as soon as a
segment matches no child of the current node. -/
def fbpLoop : List String → XMLNode → Bool → PR (Option XMLNode)
  | [], cur, _ => .ok (some cur)
  | seg :: rest, cur, exact =>
    match findChildMatch cur.children seg exact with
    | .ub => .ub
    | .out => .out
    | .ok none => .ok none
    | .ok (some child) => fbpLoop rest child exact

/-- Model of `xml_node_find_by_path` (xml.h:171-198).  (The NULL-argument and
`strdup`-failure guards on xml.h:172-176 are outside the model.) -/
def xml_node_find_by_path (root : XMLNode) (path : String) (exact : Bool) :
    PR (Option XMLNode) :=
  fbpLoop (pathSegs path) root exact

/-- The attribute scan of `xml_node_attr` (xml.h:203-207): linear scan in
insertion order, `strcmp` on the key. -/
def attrFind : List (String × String) → String → Option String
  | [], _ => none
  | (k, v) :: rest, key => if k == key then some v else attrFind rest key

/-- Model of `xml_node_attr` (xml.h:200-209). -/
def xml_node_attr (node : XMLNode) (key : String) : Option String :=
  attrFind node.attrs key

/-! ## Specification-side definitions

These restate, in the words of the specification and claims, what the
query operations are supposed to compute; the claim theorems compare them
with the operational definitions above. -/

mutual

/-- Depth-first pre-order listing of a subtree: the node itself, then the
pre-order listings of its children left to right. -/
def preorderN : XMLNode → List XMLNode
  | .mk t tx a ch => .mk t tx a ch :: preorderL ch

/-- Pre-order listing of a forest. -/
def preorderL : List XMLNode → List XMLNode
  | [] => []
  | c :: rest => preorderN c ++ preorderL rest

end

/-- A child tag matching a path segment, in the words of claim C6:
equality when `exact` is true, substring containment otherwise. -/
def specMatch (exact : Bool) (seg : String) (c : XMLNode) : Bool :=
  match c.tag with
  | some t => if exact then t == seg else strstrB t seg
  | none => false

/-- Claim C6's description of `find_by_path`: starting at the root,
repeatedly advance to the first direct child (document order) whose tag
matches the current segment — equality when `exact`, substring otherwise —
returning `none` as soon as a segment matches no child, and the reached
node once all segments are consumed. -/
def findByPathSpec : XMLNode → List String → Bool → Option XMLNode
  | cur, [], _ => some cur
  | cur, seg :: rest, exact =>
    match cur.children.find? (specMatch exact seg) with
    | some child => findByPathSpec child rest exact
    | none => none

mutual

/-- Every node of the subtree carries a tag (true of every tree the parser
builds: each created node's tag is assigned immediately, and ROOT is
tagged at creation). -/
def allTagged : XMLNode → Bool
  | .mk t _ _ ch => t.isSome && allTaggedL ch

/-- Model of `allTagged` on a forest. -/
def allTaggedL : List XMLNode → Bool
  | [] => true
  | c :: rest => allTagged c && allTaggedL rest

end

/-! ## Helpers for stating concrete parses -/

/-- Number of children of the returned root, when parsing returned. -/
def rootChildCount : PR XMLNode → Option Nat
  | .ok n => some n.children.length
  | _ => none

/-- The text of the first child of the returned root, when parsing
returned and a first child exists. -/
def firstChildText : PR XMLNode → Option String
  | .ok n =>
    match n.children with
    | c :: _ => c.text
    | [] => none
  | _ => none

/-- The comment terminator test (`xml[idx] = '>'` with the two previous
characters `-`, `-`) fails at every position while scanning `w`, starting
with previous characters `p1`, `p2`. -/
def noHit : Char → Char → List Char → Bool
  | _, _, [] => true
  | p1, p2, c :: rest => !(c = '>' && p1 = '-' && p2 = '-') && noHit c p1 rest

/-- The processing-instruction terminator test (`xml[idx] = '>'` with the
previous character `?`) fails at every position while scanning `w`,
starting with previous character `p1`. -/
def noHitPi : Char → List Char → Bool
  | _, [] => true
  | p1, c :: rest => !(c = '>' && p1 = '?') && noHitPi c rest

/-- A character that can appear in a tag name of a simple well-formed
document: not whitespace and none of the structural characters. -/
def tagOkC (c : Char) : Bool :=
  !(isSpaceC c || c = '>' || c = '/' || c = '<' || c = '!' || c = '?' || c = nulChar)

/-- A single element with inner text: `<t>` then whitespace, then a text
run, then `</t>`. -/
def docWithText (t ws s : List Char) : List Char :=
  '<' :: (t ++ ('>' :: (ws ++ (s ++ ('<' :: ('/' :: (t ++ ['>'])))))))

/-- A single empty element: `<t>` then whitespace, then `</t>`. -/
def docEmpty (t ws : List Char) : List Char :=
  '<' :: (t ++ ('>' :: (ws ++ ('<' :: ('/' :: (t ++ ['>']))))))

/-- The bottommost node of a nonempty stack carries tag ("ROOT"). -/
def lastTagRoot : List XMLNode → Prop
  | [] => False
  | [n] => n.tag = some ("ROOT")
  | _ :: n :: rest => lastTagRoot (n :: rest)

/-- Invariant of the parser state: once the root has been popped its tag
is ("ROOT"); before that the bottom of the stack (the original ROOT node)
carries tag ("ROOT"). -/
def stInv (st : PState) : Prop :=
  match st.rootDone with
  | some r => r.tag = some ("ROOT")
  | none => lastTagRoot st.stack

/-! ## Theorems -/

/-- C1: claim says `xml_node_child_at(node, idx)` returns an absent result
for every `idx >= children.count`, including `idx = 0` on a childless
node.  The code computes `node->children->len - 1` in `size_t`; on a
childless node this underflows to `2^64 - 1`, the guard `0 > 2^64 - 1`
fails, and the function reads `children->data[0]` — an uninitialised slot
— instead of returning NULL. -/
theorem c1_child_at_underflow :
    xml_node_child_at (XMLNode.mk (some ("a")) none [] []) 0 = ChildAtRes.oobRead := by
  exact rfl

/-- C2: claim says parsing `<rating value="4.5" />` records the attribute
pair ("value","4.5").  The value scan (xml.h:349-353) leaves `value_start`
at the opening quote, so `xml[*idx] == quote` holds immediately and the
recorded value is the empty string (first conjunct); the cursor is then
"advanced past the closing quote" (actually past the opening one), the
characters `4.5" />` are scanned as the next attribute key, and the search
for `=` runs past the terminating NUL — an out-of-bounds read, so the
whole parse is undefined behaviour (second conjunct). -/
theorem c2_attr_value_bug :
    scanValueW '"' '=' ('"' :: "4.5\" />".data ++ [nulChar]) =
      PR.ok ([], "4.5\" />".data ++ [nulChar]) ∧
    xml_parse_string ("<rating value=\"4.5\" />").data 30 = PR.ub := by
  exact ⟨rfl, rfl⟩

/-- C3 counterexample: claim says a node's text is trimmed of leading and
trailing whitespace.  Parsing `<a>hi </a>` records the text ("hi ") with its
trailing blank: the inner-text scan (xml.h:311-313) copies everything up
to the character before the `</`, including trailing whitespace. -/
theorem c3_counterexample :
    firstChildText (xml_parse_string ("<a>hi </a>").data 30) = some ("hi ") ∧
    ("hi (" : String) ≠ ")hi" := by
  exact ⟨rfl, by decide⟩

/-- C4: claim says a well-formed input with N top-level elements yields a
root with exactly N children.  `<a></a><b/>` has two top-level elements,
but the empty-element branch (xml.h:304-305) returns without consuming
`</a>` or popping `a`; the scan loop then skips `</a>` character by
character (its `<` was already consumed), so `b` is attached as a child of
the still-open `a` and the root ends with one child. -/
theorem c4_sibling_lost :
    rootChildCount (xml_parse_string ("<a></a><b/>").data 30) = some 1 := by
  exact rfl

/-- C8: claim says the scan loop terminates at the end of the buffer for
every well-formed input.  On `<a b="c"/>` the attribute-value scan stops
at the opening quote (recording the empty value), the cursor re-enters the
value, and the next key scan `while (xml[*idx] != '=')` (xml.h:344-345)
runs past the terminating NUL: an out-of-bounds scan instead of
termination at the end of the buffer. -/
theorem c8_scan_past_end :
    xml_parse_string ("<a b=\"c\"/>").data 30 = PR.ub := by
  exact rfl

/-- C9 counterexample: claim says the tree produced for an input
containing a comment equals the tree with the comment removed.  A comment
between a text run and the end tag is not recognised (comments are only
dispatched at the top of the scan loop): it is swallowed into the inner
text, so the two trees differ. -/
theorem c9_counterexample :
    firstChildText (xml_parse_string ("<a>x<!--y--></a>").data 30) = some ("x<!--y-->") ∧
    firstChildText (xml_parse_string ("<a>x</a>").data 30) = some ("x") ∧
    ("x<!--y-->" : String) ≠ "x" := by
  exact ⟨rfl, rfl, by decide⟩

/-- C10 counterexample: claim says `xml_parse_string` returns a non-null
ROOT node regardless of the input's content.  On the input `<` the tag
name scan (xml.h:293-294) finds neither whitespace nor `>` nor `/` before
the end of the buffer and reads past the terminating NUL: the function
does not return normally (undefined behaviour) on this input. -/
theorem c10_counterexample :
    xml_parse_string ("<").data 30 = PR.ub := by
  exact rfl

/-- The linear attribute scan agrees with `List.find?` on the key. -/
theorem attrFind_eq (l : List (String × String)) (key : String) :
    attrFind l key = (l.find? (fun p => p.1 == key)).map Prod.snd := by
  induction l with
  | nil => rfl
  | cons p rest ih =>
    obtain ⟨k, v⟩ := p
    by_cases h : k = key
    · simp [attrFind, List.find?_cons, h]
    · simp only [attrFind, List.find?_cons]
      have hb : (k == key) = false := by simpa using h
      simp [hb, ih]

/-- C7: `xml_node_attr(node, key)` scans the attribute list linearly in
insertion order and returns the value of the first pair whose key equals
`key` (`List.find?` over the insertion-ordered list), or none when no key
matches; with duplicate keys the first match wins. -/
theorem c7_attr_first_match (node : XMLNode) (key : String) :
    xml_node_attr node key = ((node.attrs.find? (fun p => p.1 == key)).map Prod.snd) := by
  exact attrFind_eq node.attrs key

mutual

/-- Lemma: `xml_node_find_tag` agrees with "first match of a depth-first
pre-order listing" on a single subtree. -/
theorem findTag_node_eq : ∀ (tg : String) (e : Bool) (n : XMLNode),
    xml_node_find_tag n tg e = (preorderN n).find? (tagMatchB tg e)
  | tg, e, .mk t tx a ch => by
    rw [xml_node_find_tag, preorderN]
    cases h : tagMatchB tg e (XMLNode.mk t tx a ch) with
    | true => simp [h, List.find?_cons]
    | false => simp [h, List.find?_cons, findTag_list_eq tg e ch]

/-- Lemma: `findTagChildren` agrees with ("first match of a pre-order listing") on
a forest. -/
theorem findTag_list_eq : ∀ (tg : String) (e : Bool) (l : List XMLNode),
    findTagChildren l tg e = (preorderL l).find? (tagMatchB tg e)
  | _, _, [] => rfl
  | tg, e, c :: rest => by
    rw [findTagChildren, preorderL, List.find?_append,
        findTag_node_eq tg e c, findTag_list_eq tg e rest]
    cases (preorderN c).find? (tagMatchB tg e) <;> simp

end

/-- C5: `xml_node_find_tag(node, name, exact)` performs a depth-first
pre-order search starting at `node` (node itself included) and returns the
first node (in pre-order) whose tag equals `name` when `exact` is true, or
contains `name` as a substring when `exact` is false, and returns absent
when no node of the subtree matches — i.e. it equals `List.find?` of the
match test over the pre-order listing of the subtree. -/
theorem c5_find_tag_preorder (node : XMLNode) (name : String) (exact : Bool) :
    xml_node_find_tag node name exact = (preorderN node).find? (tagMatchB name exact) := by
  exact findTag_node_eq name exact node

/-- Members of a forest on which `allTaggedL` holds are `allTagged`. -/
theorem allTaggedL_mem {l : List XMLNode} (h : allTaggedL l = true) :
    ∀ c ∈ l, allTagged c = true := by
  induction l with
  | nil => intro c hc; cases hc
  | cons x rest ih =>
    rw [allTaggedL, Bool.and_eq_true] at h
    intro c hc
    rcases hc with _ | hc
    · exact h.1
    · exact ih h.2 c (by assumption)

/-- The children of an `allTagged` node satisfy `allTaggedL`. -/
theorem allTagged_children {n : XMLNode} (h : allTagged n = true) :
    allTaggedL n.children = true := by
  cases n with
  | mk t tx a ch =>
    rw [allTagged, Bool.and_eq_true] at h
    exact h.2

/-- On a forest of tagged children, the child scan of
`xml_node_find_by_path` computes `List.find?` of the segment match. -/
theorem findChildMatch_eq (l : List XMLNode) (seg : String) (e : Bool)
    (h : allTaggedL l = true) :
    findChildMatch l seg e = PR.ok (l.find? (specMatch e seg)) := by
  induction l with
  | nil => rfl
  | cons c rest ih =>
    rw [allTaggedL, Bool.and_eq_true] at h
    obtain ⟨hc1, hrest⟩ := h
    cases c with
    | mk t tx a ch =>
      rw [allTagged, Bool.and_eq_true] at hc1
      cases t with
      | none => simp [Option.isSome] at hc1
      | some tv =>
        have hm : specMatch e seg (XMLNode.mk (some tv) tx a ch) =
            ((e && tv == seg) || (!e && strstrB tv seg)) := by
          rw [specMatch]
          cases e <;> simp [XMLNode.tag]
        cases hcond : ((e && tv == seg) || (!e && strstrB tv seg)) with
        | true => simp [findChildMatch, XMLNode.tag, List.find?_cons, hm, hcond]
        | false => simp [findChildMatch, XMLNode.tag, List.find?_cons, hm, hcond, ih hrest]

/-- The `strtok` walk of `xml_node_find_by_path` agrees with the
specification walk on trees whose nodes all carry tags. -/
theorem fbpLoop_eq (segs : List String) (cur : XMLNode) (e : Bool)
    (h : allTagged cur = true) :
    fbpLoop segs cur e = PR.ok (findByPathSpec cur segs e) := by
  induction segs generalizing cur with
  | nil => rfl
  | cons seg rest ih =>
    rw [fbpLoop, findByPathSpec, findChildMatch_eq cur.children seg e (allTagged_children h)]
    cases hf : cur.children.find? (specMatch e seg) with
    | none => rfl
    | some child =>
      have hmem : child ∈ cur.children := List.mem_of_find?_eq_some hf
      exact ih child (allTaggedL_mem (allTagged_children h) child hmem)

/-- C6: `xml_node_find_by_path(root, path, exact)` splits `path` on `/`
into ordered segments (the `strtok` loop: maximal nonempty runs between
slashes), starts at `root`, repeatedly advances to the first direct child
in document order whose tag matches the current segment (equality when
`exact`, substring otherwise), returns absent as soon as a segment matches
no child, and returns the reached node after consuming all segments —
provided every node of the tree carries a tag, which holds for every tree
the parser builds (a NULL tag would make the C comparison undefined). -/
theorem c6_find_by_path (root : XMLNode) (path : String) (exact : Bool)
    (h : allTagged root = true) :
    xml_node_find_by_path root path exact =
      PR.ok (findByPathSpec root (pathSegs path) exact) := by
  exact fbpLoop_eq (pathSegs path) root exact h

/-- Scanning for the comment terminator over characters on which the
terminator test never fires, followed by a literal `-->`, stops exactly at
the final `>`. -/
theorem commentEndW_skip (w : List Char) (p1 p2 : Char) (rest : List Char)
    (h : noHit p1 p2 w = true) :
    commentEndW p1 p2 (w ++ '-' :: '-' :: '>' :: rest) = PR.ok rest := by
  induction w generalizing p1 p2 with
  | nil => simp [commentEndW]
  | cons c w' ih =>
    rw [noHit, Bool.and_eq_true] at h
    obtain ⟨h1, h2⟩ := h
    have h1f : (c = '>' && p1 = '-' && p2 = '-') = false := by
      revert h1
      cases (c = '>' && p1 = '-' && p2 = '-') <;> simp
    rw [List.cons_append, commentEndW, h1f]
    simp only [Bool.false_eq_true, if_false]
    exact ih c p1 h2

/-- Scanning for the instruction terminator over characters on which the
terminator test never fires, followed by a literal `?>`, stops exactly at
the final `>`. -/
theorem piEndW_skip (w : List Char) (p1 : Char) (rest : List Char)
    (h : noHitPi p1 w = true) :
    piEndW p1 (w ++ '?' :: '>' :: rest) = PR.ok rest := by
  induction w generalizing p1 with
  | nil => simp [piEndW]
  | cons c w' ih =>
    rw [noHitPi, Bool.and_eq_true] at h
    obtain ⟨h1, h2⟩ := h
    have h1f : (c = '>' && p1 = '?') = false := by
      revert h1
      cases (c = '>' && p1 = '?') <;> simp
    rw [List.cons_append, piEndW, h1f]
    simp only [Bool.false_eq_true, if_false]
    exact ih c h2

/-- One iteration of the scan loop on a `<` followed by a recognised
comment: the loop continues after the comment with one unit of fuel spent
and the tree state untouched. -/
theorem parseLoop_lt_comment (f : Nat) (c0 : Char) (w' w2 : List Char) (st : PState)
    (hsp : isSpaceC c0 = false)
    (hc : parse_comment (c0 :: w') = PR.ok (some w2)) :
    parseLoop (f + 1) ('<' :: c0 :: w') st = parseLoop f w2 st := by
  have hskip : skipSpacesW (c0 :: w') = PR.ok (c0 :: w') := by
    rw [skipSpacesW, hsp]
    simp
  rw [parseLoop, if_neg (by decide : ¬('<' = nulChar)),
      if_neg (by decide : ¬(isSpaceC '<' = true)), if_pos rfl]
  simp only [hskip, hc]

/-- One iteration of the scan loop on a `<` followed by a recognised
processing instruction: the loop continues after it with one unit of fuel
spent and the tree state untouched. -/
theorem parseLoop_lt_pi (f : Nat) (c0 : Char) (w' w2 : List Char) (st : PState)
    (hsp : isSpaceC c0 = false)
    (hnc : parse_comment (c0 :: w') = PR.ok none)
    (hpi : parse_processing_instruction (c0 :: w') = PR.ok (some w2)) :
    parseLoop (f + 1) ('<' :: c0 :: w') st = parseLoop f w2 st := by
  have hskip : skipSpacesW (c0 :: w') = PR.ok (c0 :: w') := by
    rw [skipSpacesW, hsp]
    simp
  rw [parseLoop, if_neg (by decide : ¬('<' = nulChar)),
      if_neg (by decide : ¬(isSpaceC '<' = true)), if_pos rfl]
  simp only [hskip, hnc, hpi]

/-- C9 as amended: a comment `<!--c-->` or processing instruction
`<?c?>` standing at the start of the input (a position where the scan
loop dispatches) is scanned to its terminator, its content is discarded,
and it has no effect on the tree: the parse of the input with it equals
the parse of the input with it removed (at one unit less of loop fuel).
The hypotheses say the terminator test does not fire early inside `c`. -/
theorem c9_amended :
    (∀ (c rest : List Char) (f : Nat), noHit '-' '-' c = true →
      xml_parse_string ('<' :: '!' :: '-' :: '-' :: (c ++ '-' :: '-' :: '>' :: rest)) (f + 1) =
        xml_parse_string rest f) ∧
    (∀ (c rest : List Char) (f : Nat), noHitPi '?' c = true →
      xml_parse_string ('<' :: '?' :: (c ++ '?' :: '>' :: rest)) (f + 1) =
        xml_parse_string rest f) := by
  constructor
  · intro c rest f h
    have hb : ('<' :: '!' :: '-' :: '-' :: (c ++ '-' :: '-' :: '>' :: rest)) ++ [nulChar] =
        '<' :: '!' :: '-' :: '-' :: (c ++ '-' :: '-' :: '>' :: (rest ++ [nulChar])) := by
      simp
    have hpc : parse_comment ('!' :: '-' :: '-' :: (c ++ '-' :: '-' :: '>' :: (rest ++ [nulChar]))) =
        PR.ok (some (rest ++ [nulChar])) := by
      have hstep : parse_comment ('!' :: '-' :: '-' :: (c ++ '-' :: '-' :: '>' :: (rest ++ [nulChar]))) =
          (match commentEndW '-' '-' (c ++ '-' :: '-' :: '>' :: (rest ++ [nulChar])) with
           | .ok r => PR.ok (some r)
           | .ub => PR.ub
           | .out => PR.out) := rfl
      rw [hstep, commentEndW_skip c '-' '-' (rest ++ [nulChar]) h]
    rw [xml_parse_string, xml_parse_string, hb,
        parseLoop_lt_comment f '!' _ _ rootInit rfl hpc]
  · intro c rest f h
    have hb : ('<' :: '?' :: (c ++ '?' :: '>' :: rest)) ++ [nulChar] =
        '<' :: '?' :: (c ++ '?' :: '>' :: (rest ++ [nulChar])) := by
      simp
    have hpi : parse_processing_instruction ('?' :: (c ++ '?' :: '>' :: (rest ++ [nulChar]))) =
        PR.ok (some (rest ++ [nulChar])) := by
      have hstep : parse_processing_instruction ('?' :: (c ++ '?' :: '>' :: (rest ++ [nulChar]))) =
          (match piEndW '?' (c ++ '?' :: '>' :: (rest ++ [nulChar])) with
           | .ok r => PR.ok (some r)
           | .ub => PR.ub
           | .out => PR.out) := rfl
      rw [hstep, piEndW_skip c '?' (rest ++ [nulChar]) h]
    rw [xml_parse_string, xml_parse_string, hb,
        parseLoop_lt_pi f '?' _ _ rootInit rfl rfl hpi]

/-- Unpacking of `tagOkC`. -/
theorem tagOkC_spec {c : Char} (h : tagOkC c = true) :
    isSpaceC c = false ∧ c ≠ '>' ∧ c ≠ '/' ∧ c ≠ '<' ∧ c ≠ '!' ∧ c ≠ '?' ∧ c ≠ nulChar := by
  rw [tagOkC] at h
  simp only [Bool.not_eq_true', Bool.or_eq_false_iff, decide_eq_false_iff_not] at h
  tauto

/-- The whitespace skip passes over an all-whitespace block. -/
theorem skipSpacesW_all (ws : List Char) (w' : List Char)
    (h : ∀ c ∈ ws, isSpaceC c = true) :
    skipSpacesW (ws ++ w') = skipSpacesW w' := by
  induction ws with
  | nil => rfl
  | cons c rest ih =>
    rw [List.cons_append, skipSpacesW, h c (by simp)]
    simp only [if_true]
    exact ih (fun d hd => h d (by simp [hd]))

/-- The whitespace skip stops at a non-whitespace character. -/
theorem skipSpacesW_stop (c : Char) (w' : List Char) (h : isSpaceC c = false) :
    skipSpacesW (c :: w') = PR.ok (c :: w') := by
  rw [skipSpacesW, h]
  simp

/-- The tag-name scan passes over tag characters and stops at the first
stopping character, returning the name. -/
theorem scanTagNameW_run (t : List Char) (d : Char) (r : List Char)
    (ht : ∀ c ∈ t, tagOkC c = true)
    (hd : (isSpaceC d || d = '>' || d = '/') = true) :
    scanTagNameW (t ++ d :: r) = PR.ok (t, d :: r) := by
  induction t with
  | nil =>
    rw [List.nil_append, scanTagNameW, hd]
    simp
  | cons c rest ih =>
    obtain ⟨h1, h2, h3, -⟩ := tagOkC_spec (ht c (by simp))
    have hstop : (isSpaceC c || c = '>' || c = '/') = false := by
      simp [h1, h2, h3]
    rw [List.cons_append, scanTagNameW, hstop]
    simp only [Bool.false_eq_true, if_false]
    rw [ih (fun e he => ht e (by simp [he]))]

/-- The scan to `>` passes over non-`>` characters and consumes the `>`. -/
theorem scanToGtW_run (cs : List Char) (r : List Char)
    (h : ∀ c ∈ cs, c ≠ '>') :
    scanToGtW (cs ++ '>' :: r) = PR.ok r := by
  induction cs with
  | nil => simp [scanToGtW]
  | cons c rest ih =>
    rw [List.cons_append, scanToGtW, if_neg (h c (by simp))]
    exact ih (fun e he => h e (by simp [he]))

/-- The inner-text scan over `<`-free text stops at the character before
the following `</`, returning the whole text. -/
theorem textEndW_run : ∀ (s : List Char) (r : List Char), s ≠ [] →
    (∀ c ∈ s, c ≠ '<') →
    ∃ z, textEndW (s ++ '<' :: '/' :: r) = PR.ok (s, z :: '<' :: '/' :: r)
  | [], _, hne, _ => absurd rfl hne
  | [x], r, _, _ => ⟨x, by simp [textEndW]⟩
  | x :: y :: s'', r, _, hall => by
    have hy : y ≠ '<' := hall y (by simp)
    obtain ⟨z, hz⟩ := textEndW_run (y :: s'') r (by simp)
      (fun c hc => hall c (by simp at hc ⊢; tauto))
    refine ⟨z, ?_⟩
    have hshape : (x :: y :: s'') ++ '<' :: '/' :: r =
        x :: y :: (s'' ++ '<' :: '/' :: r) := by simp
    have hz' : textEndW (y :: (s'' ++ '<' :: '/' :: r)) =
        PR.ok (y :: s'', z :: '<' :: '/' :: r) := by
      rw [← List.cons_append]
      exact hz
    rw [hshape, textEndW.eq_def]
    simp only [hy, hz']
    simp

/-- Lemma: `parse_comment` rejects a suffix that does not start with `!`. -/
theorem parse_comment_not (c0 : Char) (w' : List Char) (h : c0 ≠ '!') :
    parse_comment (c0 :: w') = PR.ok none := by
  rw [parse_comment.eq_def]
  simp only [h]
  simp

/-- Lemma: `parse_processing_instruction` rejects a suffix that does not start
with `?`. -/
theorem parse_pi_not (c0 : Char) (w' : List Char) (h : c0 ≠ '?') :
    parse_processing_instruction (c0 :: w') = PR.ok none := by
  rw [parse_processing_instruction.eq_def]
  simp only [h]
  simp

/-- One iteration of the scan loop on a `<` that is neither a comment nor
an instruction: dispatch to `parse_tag`, then continue (with an extra
cursor step after a true return). -/
theorem parseLoop_lt_tag (f : Nat) (c0 : Char) (w' : List Char) (st : PState)
    (hsp : isSpaceC c0 = false)
    (hnc : parse_comment (c0 :: w') = PR.ok none)
    (hnp : parse_processing_instruction (c0 :: w') = PR.ok none) :
    parseLoop (f + 1) ('<' :: c0 :: w') st =
      (match parse_tag f (c0 :: w') st with
       | .ub => PR.ub
       | .out => PR.out
       | .ok (ret, w2, st1) =>
         if ret then parseLoop f w2.tail st1 else parseLoop f w2 st1) := by
  have hskip : skipSpacesW (c0 :: w') = PR.ok (c0 :: w') := skipSpacesW_stop c0 w' hsp
  rw [parseLoop, if_neg (by decide : ¬('<' = nulChar)),
      if_neg (by decide : ¬(isSpaceC '<' = true)), if_pos rfl]
  simp only [hskip, hnc, hnp]

/-- A loop iteration at the terminating NUL returns the current state. -/
theorem parseLoop_nul (f : Nat) (rest : List Char) (st : PState) :
    parseLoop (f + 1) (nulChar :: rest) st = PR.ok st := by
  rw [parseLoop, if_pos rfl]

/-- The scan loop steps over characters that are not NUL, whitespace or
`<` one at a time, spending one unit of fuel each. -/
theorem parseLoop_junk (cs : List Char) (rest : List Char) (st : PState) (f : Nat)
    (h : ∀ c ∈ cs, isSpaceC c = false ∧ c ≠ '<' ∧ c ≠ nulChar) :
    parseLoop (f + cs.length) (cs ++ rest) st = parseLoop f rest st := by
  induction cs with
  | nil => rfl
  | cons c cs' ih =>
    obtain ⟨h1, h2, h3⟩ := h c (by simp)
    have hfuel : f + (c :: cs').length = (f + cs'.length) + 1 := by
      simp [List.length_cons]
      omega
    rw [hfuel, List.cons_append, parseLoop, if_neg h3, h1]
    simp only [Bool.false_eq_true, if_false]
    rw [if_neg h2]
    exact ih (fun e he => h e (by simp [he]))

/-- Lemma: `parse_tag` on an end tag `</cs>`: scan to the `>`, pop the current
node. -/
theorem parse_tag_endtag (f : Nat) (cs r : List Char) (st st' : PState)
    (h : ∀ c ∈ cs, c ≠ '>')
    (hpop : popNode st = PR.ok st') :
    parse_tag (f + 1) ('/' :: (cs ++ '>' :: r)) st = PR.ok (false, r, st') := by
  have hskip : skipSpacesW ('/' :: (cs ++ '>' :: r)) = PR.ok ('/' :: (cs ++ '>' :: r)) :=
    skipSpacesW_stop _ _ (by decide)
  have hgt : scanToGtW ('/' :: (cs ++ '>' :: r)) = PR.ok r := by
    rw [scanToGtW, if_neg (by decide : ¬('/' = '>'))]
    exact scanToGtW_run cs r h
  rw [parse_tag]
  simp only [hskip, hgt, hpop]
  simp

/-- Lemma: `parse_tag` on a start tag `<t>` whose body is whitespace followed by
a `<`-free text run and the closing tag: the new node gets the tag name
and the text with the leading whitespace skipped and everything up to the
`</` — including trailing whitespace — preserved. -/
theorem parse_tag_textcase (f : Nat) (t ws sR r : List Char) (t0 s0 : Char) (st : PState)
    (ht : ∀ c ∈ t0 :: t, tagOkC c = true)
    (hws : ∀ c ∈ ws, isSpaceC c = true)
    (hs0 : isSpaceC s0 = false)
    (hs : ∀ c ∈ s0 :: sR, c ≠ '<') :
    ∃ z, parse_tag (f + 1) ((t0 :: t) ++ '>' :: (ws ++ ((s0 :: sR) ++ '<' :: '/' :: r))) st =
      PR.ok (true, z :: '<' :: '/' :: r,
        ⟨XMLNode.mk (some (String.mk (t0 :: t))) (some (String.mk (s0 :: sR))) [] []
          :: st.stack, st.rootDone⟩) := by
  obtain ⟨hsp0, hgt0, hsl0, hlt0, hb0, hq0, hn0⟩ := tagOkC_spec (ht t0 (by simp))
  obtain ⟨z, hz⟩ := textEndW_run (s0 :: sR) r (by simp) hs
  have hlts0 : s0 ≠ '<' := hs s0 (by simp)
  refine ⟨z, ?_⟩
  have e1 : skipSpacesW ((t0 :: t) ++ '>' :: (ws ++ ((s0 :: sR) ++ '<' :: '/' :: r))) =
      PR.ok ((t0 :: t) ++ '>' :: (ws ++ ((s0 :: sR) ++ '<' :: '/' :: r))) := by
    rw [List.cons_append]
    exact skipSpacesW_stop _ _ hsp0
  have e2 : scanTagNameW ((t0 :: t) ++ '>' :: (ws ++ ((s0 :: sR) ++ '<' :: '/' :: r))) =
      PR.ok (t0 :: t, '>' :: (ws ++ ((s0 :: sR) ++ '<' :: '/' :: r))) :=
    scanTagNameW_run (t0 :: t) '>' _ ht (by decide)
  have e3 : skipSpacesW (ws ++ ((s0 :: sR) ++ '<' :: '/' :: r)) =
      PR.ok ((s0 :: sR) ++ '<' :: '/' :: r) := by
    rw [skipSpacesW_all ws _ hws, List.cons_append]
    exact skipSpacesW_stop _ _ hs0
  rw [parse_tag]
  simp only [List.cons_append] at e1 e2 e3 hz
  simp [e1, e2, e3, hz, hsl0, hlts0, xml_node_new, setTag, setText]

/-- Lemma: `parse_tag` on a start tag `<t>` whose body is whitespace directly
followed by the closing tag: the empty-element test fires, `parse_tag`
returns true with the cursor still on the `<` of the end tag, and the new
node has neither text nor children. -/
theorem parse_tag_emptycase (f : Nat) (t ws r : List Char) (t0 : Char) (st : PState)
    (ht : ∀ c ∈ t0 :: t, tagOkC c = true)
    (hws : ∀ c ∈ ws, isSpaceC c = true) :
    parse_tag (f + 1) ((t0 :: t) ++ '>' :: (ws ++ '<' :: '/' :: r)) st =
      PR.ok (true, '<' :: '/' :: r,
        ⟨XMLNode.mk (some (String.mk (t0 :: t))) none [] [] :: st.stack, st.rootDone⟩) := by
  obtain ⟨hsp0, hgt0, hsl0, hlt0, hb0, hq0, hn0⟩ := tagOkC_spec (ht t0 (by simp))
  have e1 : skipSpacesW ((t0 :: t) ++ '>' :: (ws ++ '<' :: '/' :: r)) =
      PR.ok ((t0 :: t) ++ '>' :: (ws ++ '<' :: '/' :: r)) := by
    rw [List.cons_append]
    exact skipSpacesW_stop _ _ hsp0
  have e2 : scanTagNameW ((t0 :: t) ++ '>' :: (ws ++ '<' :: '/' :: r)) =
      PR.ok (t0 :: t, '>' :: (ws ++ '<' :: '/' :: r)) :=
    scanTagNameW_run (t0 :: t) '>' _ ht (by decide)
  have e3 : skipSpacesW (ws ++ '<' :: '/' :: r) = PR.ok ('<' :: '/' :: r) := by
    rw [skipSpacesW_all ws _ hws]
    exact skipSpacesW_stop _ _ (by decide)
  rw [parse_tag]
  simp only [List.cons_append] at e1 e2 e3
  simp [e1, e2, e3, hsl0, xml_node_new, setTag]

/-- C3 as amended: when an element's content is reached directly after
the start tag's `>` (no preceding sub-element), the recorded text is the
content with the leading whitespace skipped and everything up to the
character before the closing `</` — including trailing whitespace —
preserved (first conjunct, text `s0 :: sR` kept verbatim after the
whitespace block `ws`); whitespace-only content yields no text at all
(second conjunct).  `t0 :: t` is the tag name; the text run contains no
`<`. -/
theorem c3_amended :
    (∀ (f : Nat) (t ws sR : List Char) (t0 s0 : Char),
      (∀ c ∈ t0 :: t, tagOkC c = true) →
      (∀ c ∈ ws, isSpaceC c = true) →
      isSpaceC s0 = false →
      (∀ c ∈ s0 :: sR, c ≠ '<') →
      xml_parse_string (docWithText (t0 :: t) ws (s0 :: sR)) (f + 3) =
        PR.ok (XMLNode.mk (some ("ROOT")) none []
          [XMLNode.mk (some (String.mk (t0 :: t))) (some (String.mk (s0 :: sR))) [] []])) ∧
    (∀ (f : Nat) (t ws : List Char) (t0 : Char),
      (∀ c ∈ t0 :: t, tagOkC c = true) →
      (∀ c ∈ ws, isSpaceC c = true) →
      xml_parse_string (docEmpty (t0 :: t) ws) (f + (t.length + 5)) =
        PR.ok (XMLNode.mk (some ("ROOT")) none []
          [XMLNode.mk (some (String.mk (t0 :: t))) none [] []])) := by
  constructor
  · intro f t ws sR t0 s0 ht hws hs0 hs
    obtain ⟨hsp0, hgt0, hsl0, hlt0, hb0, hq0, hn0⟩ := tagOkC_spec (ht t0 (by simp))
    obtain ⟨z, hpt⟩ := parse_tag_textcase (f + 1) t ws sR ((t0 :: t) ++ '>' :: [nulChar])
      t0 s0 rootInit ht hws hs0 hs
    simp only [List.cons_append, rootInit] at hpt
    have hnogt : ∀ c ∈ t0 :: t, c ≠ '>' := fun c hc => (tagOkC_spec (ht c hc)).2.1
    have hend := parse_tag_endtag f (t0 :: t) [nulChar]
      ⟨[XMLNode.mk (some (String.mk (t0 :: t))) (some (String.mk (s0 :: sR))) [] [],
        XMLNode.mk (some ("ROOT")) none [] []], none⟩
      ⟨[XMLNode.mk (some ("ROOT")) none []
        [XMLNode.mk (some (String.mk (t0 :: t))) (some (String.mk (s0 :: sR))) [] []]], none⟩
      hnogt rfl
    simp only [List.cons_append] at hend
    have h2 : parseLoop (f + 2)
        ('<' :: '/' :: (t0 :: (t ++ '>' :: [nulChar])))
        ⟨[XMLNode.mk (some (String.mk (t0 :: t))) (some (String.mk (s0 :: sR))) [] [],
          XMLNode.mk (some ("ROOT")) none [] []], none⟩ =
        PR.ok ⟨[XMLNode.mk (some ("ROOT")) none []
          [XMLNode.mk (some (String.mk (t0 :: t))) (some (String.mk (s0 :: sR))) [] []]], none⟩ := by
      show parseLoop ((f + 1) + 1) _ _ = _
      rw [parseLoop_lt_tag (f + 1) '/' (t0 :: (t ++ '>' :: [nulChar])) _ (by decide)
        (parse_comment_not _ _ (by decide)) (parse_pi_not _ _ (by decide))]
      rw [hend]
      simp only [Bool.false_eq_true, if_false]
      exact parseLoop_nul f [] _
    have h1 : parseLoop (f + 3)
        ('<' :: t0 :: (t ++ '>' :: (ws ++ (s0 :: (sR ++ '<' :: '/' :: (t0 :: (t ++ '>' :: [nulChar])))))))
        ⟨[XMLNode.mk (some ("ROOT")) none [] []], none⟩ =
        PR.ok ⟨[XMLNode.mk (some ("ROOT")) none []
          [XMLNode.mk (some (String.mk (t0 :: t))) (some (String.mk (s0 :: sR))) [] []]], none⟩ := by
      show parseLoop ((f + 2) + 1) _ _ = _
      rw [parseLoop_lt_tag (f + 2) t0 _ _ hsp0
        (parse_comment_not _ _ hb0) (parse_pi_not _ _ hq0)]
      rw [hpt]
      simp only [if_true, List.tail_cons]
      exact h2
    have hbuf : docWithText (t0 :: t) ws (s0 :: sR) ++ [nulChar] =
        '<' :: t0 :: (t ++ '>' :: (ws ++ (s0 :: (sR ++ '<' :: '/' :: (t0 :: (t ++ '>' :: [nulChar])))))) := by
      simp [docWithText]
    rw [xml_parse_string, hbuf]
    rw [show rootInit = (⟨[XMLNode.mk (some ("ROOT")) none [] []], none⟩ : PState) from rfl, h1]
    simp [finalize, closeStack]
  · intro f t ws t0 ht hws
    obtain ⟨hsp0, hgt0, hsl0, hlt0, hb0, hq0, hn0⟩ := tagOkC_spec (ht t0 (by simp))
    have hpt := parse_tag_emptycase (f + t.length + 3) t ws ((t0 :: t) ++ '>' :: [nulChar])
      t0 rootInit ht hws
    simp only [List.cons_append, rootInit] at hpt
    have hjunk : ∀ c ∈ '/' :: ((t0 :: t) ++ ['>']),
        isSpaceC c = false ∧ c ≠ '<' ∧ c ≠ nulChar := by
      intro c hc
      rcases List.mem_cons.mp hc with hc0 | hc1
      · subst hc0; exact ⟨by decide, by decide, by decide⟩
      · rcases List.mem_append.mp hc1 with hc2 | hc3
        · obtain ⟨hh1, -, -, hh4, -, -, hh7⟩ := tagOkC_spec (ht c hc2)
          exact ⟨hh1, hh4, hh7⟩
        · have := List.mem_singleton.mp hc3
          subst this
          exact ⟨by decide, by decide, by decide⟩
    have h1 : parseLoop (f + t.length + 4)
        ('/' :: (t0 :: (t ++ '>' :: [nulChar])))
        ⟨[XMLNode.mk (some (String.mk (t0 :: t))) none [] [],
          XMLNode.mk (some ("ROOT")) none [] []], none⟩ =
        PR.ok ⟨[XMLNode.mk (some (String.mk (t0 :: t))) none [] [],
          XMLNode.mk (some ("ROOT")) none [] []], none⟩ := by
      have hshape : ('/' :: ((t0 :: t) ++ ['>'])) ++ [nulChar] =
          '/' :: (t0 :: (t ++ '>' :: [nulChar])) := by simp
      have hlen : f + t.length + 4 = (f + 1) + ('/' :: ((t0 :: t) ++ ['>'])).length := by
        simp
        omega
      rw [← hshape, hlen, parseLoop_junk _ _ _ _ hjunk]
      exact parseLoop_nul f [] _
    have h0 : parseLoop (f + t.length + 5)
        ('<' :: t0 :: (t ++ '>' :: (ws ++ '<' :: '/' :: (t0 :: (t ++ '>' :: [nulChar])))))
        ⟨[XMLNode.mk (some ("ROOT")) none [] []], none⟩ =
        PR.ok ⟨[XMLNode.mk (some (String.mk (t0 :: t))) none [] [],
          XMLNode.mk (some ("ROOT")) none [] []], none⟩ := by
      show parseLoop ((f + t.length + 4) + 1) _ _ = _
      rw [parseLoop_lt_tag (f + t.length + 4) t0 _ _ hsp0
        (parse_comment_not _ _ hb0) (parse_pi_not _ _ hq0)]
      rw [show f + t.length + 4 = (f + t.length + 3) + 1 from rfl] at hpt ⊢
      rw [hpt]
      simp only [if_true, List.tail_cons]
      exact h1
    have hbuf : docEmpty (t0 :: t) ws ++ [nulChar] =
        '<' :: t0 :: (t ++ '>' :: (ws ++ '<' :: '/' :: (t0 :: (t ++ '>' :: [nulChar])))) := by
      simp [docEmpty]
    rw [xml_parse_string, hbuf]
    rw [show f + (t.length + 5) = f + t.length + 5 from by omega]
    rw [show rootInit = (⟨[XMLNode.mk (some ("ROOT")) none [] []], none⟩ : PState) from rfl, h0]
    simp [finalize, closeStack]

/-- Witness for C3 as amended: parsing `<a> hi </a>` keeps the trailing
blank of the text (result ("hi "), leading blank trimmed), and parsing
`<a> </a>` records no text. -/
theorem c3_amended_witness :
    xml_parse_string ("<a> hi </a>").data 3 =
      PR.ok (XMLNode.mk (some ("ROOT")) none []
        [XMLNode.mk (some ("a")) (some ("hi ")) [] []]) ∧
    xml_parse_string ("<a> </a>").data 5 =
      PR.ok (XMLNode.mk (some ("ROOT")) none []
        [XMLNode.mk (some ("a")) none [] []]) := by
  constructor
  · exact c3_amended.1 0 [] [' '] ['i', ' '] 'a' 'h'
      (by decide) (by decide) (by decide) (by decide)
  · exact c3_amended.2 0 [] [' '] 'a' (by decide) (by decide)

/-- Witness for C9 as amended, at a concrete comment, instruction, input
and fuel. -/
theorem c9_amended_witness :
    xml_parse_string ("<!--y--><a/>").data 21 = xml_parse_string ("<a/>").data 20 ∧
    xml_parse_string ("<?xml version?><a/>").data 21 = xml_parse_string ("<a/>").data 20 := by
  constructor
  · exact c9_amended.1 ("y").data ("<a/>").data 20 (by decide)
  · exact c9_amended.2 ("xml version").data ("<a/>").data 20 (by decide)

/-- A nonempty stack keeps its ROOT bottom when a node is pushed. -/
theorem lastTagRoot_cons {l : List XMLNode} (n : XMLNode) (h : lastTagRoot l) :
    lastTagRoot (n :: l) := by
  cases l with
  | nil => exact absurd h (by simp [lastTagRoot])
  | cons m rest => simpa [lastTagRoot] using h

/-- Replacing the head of a stack by a node with the same tag keeps the
ROOT bottom. -/
theorem lastTagRoot_head {n n' : XMLNode} {rest : List XMLNode}
    (htag : n'.tag = n.tag) (h : lastTagRoot (n :: rest)) : lastTagRoot (n' :: rest) := by
  cases rest with
  | nil =>
    simp only [lastTagRoot] at h ⊢
    rw [htag]
    exact h
  | cons m r2 =>
    simpa [lastTagRoot] using h

/-- Lemma: `stInv` is preserved by pushing a node (`xml_node_new`). -/
theorem stInv_push (n : XMLNode) (st : PState) (h : stInv st) :
    stInv ⟨n :: st.stack, st.rootDone⟩ := by
  obtain ⟨stack, rd⟩ := st
  cases rd with
  | some r => exact h
  | none => exact lastTagRoot_cons n h

/-- Lemma: `stInv` is preserved by `setText`. -/
theorem stInv_setText {st st' : PState} {s : List Char}
    (hop : setText st s = PR.ok st') (h : stInv st) : stInv st' := by
  obtain ⟨stack, rd⟩ := st
  cases stack with
  | nil => simp [setText] at hop
  | cons hd rest =>
    cases hd with
    | mk t tx a ch =>
      simp only [setText] at hop
      cases hop
      cases rd with
      | some r => exact h
      | none => exact lastTagRoot_head (by rfl) h

/-- Lemma: `stInv` is preserved by `addAttr`. -/
theorem stInv_addAttr {st st' : PState} {k v : List Char}
    (hop : addAttr st k v = PR.ok st') (h : stInv st) : stInv st' := by
  obtain ⟨stack, rd⟩ := st
  cases stack with
  | nil => simp [addAttr] at hop
  | cons hd rest =>
    cases hd with
    | mk t tx a ch =>
      simp only [addAttr] at hop
      cases hop
      cases rd with
      | some r => exact h
      | none => exact lastTagRoot_head (by rfl) h

/-- Lemma: `stInv` is preserved by `setTag` after `xml_node_new`: the node whose
tag is set is the freshly pushed one, never the ROOT at the bottom. -/
theorem stInv_new_setTag {st st' : PState} {t : List Char}
    (hop : setTag (xml_node_new st) t = PR.ok st') (h : stInv st) : stInv st' := by
  have : setTag (xml_node_new st) t =
      PR.ok ⟨XMLNode.mk (some (String.mk t)) none [] [] :: st.stack, st.rootDone⟩ := rfl
  rw [this] at hop
  cases hop
  exact stInv_push _ _ h

/-- Lemma: `stInv` is preserved by `popNode`. -/
theorem stInv_pop {st st' : PState}
    (hop : popNode st = PR.ok st') (h : stInv st) : stInv st' := by
  obtain ⟨stack, rd⟩ := st
  cases stack with
  | nil => simp [popNode] at hop
  | cons n rest =>
    cases rest with
    | nil =>
      simp only [popNode] at hop
      cases hop
      cases rd with
      | some r => exact h
      | none =>
        simp only [stInv, Option.getD] at h ⊢
        simpa [lastTagRoot] using h
    | cons p rest2 =>
      cases p with
      | mk pt ptx pa pch =>
        simp only [popNode] at hop
        cases hop
        cases rd with
        | some r => exact h
        | none =>
          have h' : lastTagRoot (XMLNode.mk pt ptx pa pch :: rest2) := by
            simpa [lastTagRoot] using h
          exact lastTagRoot_head (by rfl) h'

/-- The attribute loop preserves `stInv`. -/
theorem parseAttrs_inv : ∀ (f : Nat) (w : List Char) (st : PState) (r : List Char × PState),
    parseAttrs f w st = PR.ok r → stInv st → stInv r.2 := by
  intro f
  induction f with
  | zero => intro w st r h _; simp [parseAttrs] at h
  | succ f ih =>
    intro w st r h hinv
    cases w with
    | nil => simp [parseAttrs] at h
    | cons c rest =>
      rw [parseAttrs] at h
      by_cases hc : (c = '>' || c = '/') = true
      · rw [if_pos hc] at h
        cases h
        exact hinv
      · rw [if_neg hc] at h
        cases hsq : scanEqW (c :: rest) with
        | ub => simp only [hsq] at h; exact PR.noConfusion h
        | out => simp only [hsq] at h; exact PR.noConfusion h
        | ok kv =>
          obtain ⟨key, w1⟩ := kv
          simp only [hsq] at h
          cases w1 with
          | nil => exact PR.noConfusion h
          | cons q r1 =>
            simp only [] at h
            cases hsv : scanValueW q '=' (q :: r1) with
            | ub => simp only [hsv] at h; exact PR.noConfusion h
            | out => simp only [hsv] at h; exact PR.noConfusion h
            | ok vw =>
              obtain ⟨v, w2⟩ := vw
              simp only [hsv] at h
              cases hadd : addAttr st key v with
              | ub => simp only [hadd] at h; exact PR.noConfusion h
              | out => simp only [hadd] at h; exact PR.noConfusion h
              | ok st1 =>
                simp only [hadd] at h
                cases hsp : skipSpacesW w2 with
                | ub => simp only [hsp] at h; exact PR.noConfusion h
                | out => simp only [hsp] at h; exact PR.noConfusion h
                | ok w3 =>
                  simp only [hsp] at h
                  exact ih w3 st1 r h (stInv_addAttr hadd hinv)

/-- Lemma: `parse_tag` preserves `stInv`. -/
theorem parse_tag_inv : ∀ (f : Nat) (w : List Char) (st : PState) (res : Bool × List Char × PState),
    parse_tag f w st = PR.ok res → stInv st → stInv res.2.2 := by
  intro f
  induction f with
  | zero => intro w st res h _; simp [parse_tag] at h
  | succ f ih =>
    intro w st res h hinv
    rw [parse_tag] at h
    cases hsk : skipSpacesW w with
    | ub => simp only [hsk] at h; exact PR.noConfusion h
    | out => simp only [hsk] at h; exact PR.noConfusion h
    | ok w0 =>
      simp only [hsk] at h
      cases w0 with
      | nil => exact PR.noConfusion h
      | cons c rest =>
        simp only [] at h
        by_cases hc : c = '/'
        · rw [if_pos hc] at h
          cases hgt : scanToGtW (c :: rest) with
          | ub => simp only [hgt] at h; exact PR.noConfusion h
          | out => simp only [hgt] at h; exact PR.noConfusion h
          | ok w1 =>
            simp only [hgt] at h
            cases hpop : popNode st with
            | ub => simp only [hpop] at h; exact PR.noConfusion h
            | out => simp only [hpop] at h; exact PR.noConfusion h
            | ok st1 =>
              simp only [hpop] at h
              cases h
              exact stInv_pop hpop hinv
        · rw [if_neg hc] at h
          cases htn : scanTagNameW (c :: rest) with
          | ub => simp only [htn] at h; exact PR.noConfusion h
          | out => simp only [htn] at h; exact PR.noConfusion h
          | ok tw =>
            obtain ⟨tname, w1⟩ := tw
            simp only [htn] at h
            cases hst : setTag (xml_node_new st) tname with
            | ub => simp only [hst] at h; exact PR.noConfusion h
            | out => simp only [hst] at h; exact PR.noConfusion h
            | ok st2 =>
              simp only [hst] at h
              have hinv2 : stInv st2 := stInv_new_setTag hst hinv
              cases w1 with
              | nil => exact PR.noConfusion h
              | cons c2 r2 =>
                simp only [] at h
                by_cases hc2 : c2 = '>'
                · rw [if_pos hc2] at h
                  cases hsp2 : skipSpacesW r2 with
                  | ub => simp only [hsp2] at h; exact PR.noConfusion h
                  | out => simp only [hsp2] at h; exact PR.noConfusion h
                  | ok w3 =>
                    simp only [hsp2] at h
                    cases w3 with
                    | nil => exact PR.noConfusion h
                    | cons c3 r3 =>
                      simp only [] at h
                      by_cases hc3 : c3 = '<'
                      · rw [if_pos hc3] at h
                        cases r3 with
                        | nil => exact PR.noConfusion h
                        | cons c4 r4 =>
                          simp only [] at h
                          by_cases hc4 : c4 = '/'
                          · rw [if_pos hc4] at h
                            cases h
                            exact hinv2
                          · rw [if_neg hc4] at h
                            cases hrec : parse_tag f (c3 :: c4 :: r4) st2 with
                            | ub => simp only [hrec] at h; exact PR.noConfusion h
                            | out => simp only [hrec] at h; exact PR.noConfusion h
                            | ok bws =>
                              obtain ⟨b, w4, st3⟩ := bws
                              simp only [hrec] at h
                              have hinv3 : stInv st3 := ih _ _ _ hrec hinv2
                              cases hte : textEndW w4 with
                              | ub => simp only [hte] at h; exact PR.noConfusion h
                              | out => simp only [hte] at h; exact PR.noConfusion h
                              | ok tpair =>
                                obtain ⟨txt, w5⟩ := tpair
                                simp only [hte] at h
                                cases hset : setText st3 txt with
                                | ub => simp only [hset] at h; exact PR.noConfusion h
                                | out => simp only [hset] at h; exact PR.noConfusion h
                                | ok st4 =>
                                  simp only [hset] at h
                                  cases h
                                  exact stInv_setText hset hinv3
                      · rw [if_neg hc3] at h
                        cases hte : textEndW (c3 :: r3) with
                        | ub => simp only [hte] at h; exact PR.noConfusion h
                        | out => simp only [hte] at h; exact PR.noConfusion h
                        | ok tpair =>
                          obtain ⟨txt, w5⟩ := tpair
                          simp only [hte] at h
                          cases hset : setText st2 txt with
                          | ub => simp only [hset] at h; exact PR.noConfusion h
                          | out => simp only [hset] at h; exact PR.noConfusion h
                          | ok st4 =>
                            simp only [hset] at h
                            cases h
                            exact stInv_setText hset hinv2
                · rw [if_neg hc2] at h
                  by_cases hc2s : c2 = '/'
                  · rw [if_pos hc2s] at h
                    cases hpop : popNode st2 with
                    | ub => simp only [hpop] at h; exact PR.noConfusion h
                    | out => simp only [hpop] at h; exact PR.noConfusion h
                    | ok st3 =>
                      simp only [hpop] at h
                      cases hgt : scanToGtW (c2 :: r2) with
                      | ub => simp only [hgt] at h; exact PR.noConfusion h
                      | out => simp only [hgt] at h; exact PR.noConfusion h
                      | ok w3 =>
                        simp only [hgt] at h
                        cases h
                        exact stInv_pop hpop hinv2
                  · rw [if_neg hc2s] at h
                    by_cases hc2sp : isSpaceC c2 = true
                    · rw [if_pos hc2sp] at h
                      cases hsp3 : skipSpacesW (c2 :: r2) with
                      | ub => simp only [hsp3] at h; exact PR.noConfusion h
                      | out => simp only [hsp3] at h; exact PR.noConfusion h
                      | ok w3 =>
                        simp only [hsp3] at h
                        cases w3 with
                        | nil => exact PR.noConfusion h
                        | cons c3 r3 =>
                          simp only [] at h
                          by_cases hc3 : c3 = '/'
                          · rw [if_pos hc3] at h
                            cases hpop : popNode st2 with
                            | ub => simp only [hpop] at h; exact PR.noConfusion h
                            | out => simp only [hpop] at h; exact PR.noConfusion h
                            | ok st3 =>
                              simp only [hpop] at h
                              cases hgt : scanToGtW (c3 :: r3) with
                              | ub => simp only [hgt] at h; exact PR.noConfusion h
                              | out => simp only [hgt] at h; exact PR.noConfusion h
                              | ok w4 =>
                                simp only [hgt] at h
                                cases h
                                exact stInv_pop hpop hinv2
                          · rw [if_neg hc3] at h
                            cases hpa : parseAttrs f (c3 :: r3) st2 with
                            | ub => simp only [hpa] at h; exact PR.noConfusion h
                            | out => simp only [hpa] at h; exact PR.noConfusion h
                            | ok wst =>
                              obtain ⟨w4, st3⟩ := wst
                              simp only [hpa] at h
                              have hinv3 : stInv st3 := parseAttrs_inv f _ st2 _ hpa hinv2
                              cases w4 with
                              | nil => exact PR.noConfusion h
                              | cons c4 r4 =>
                                simp only [] at h
                                by_cases hc4 : c4 = '/'
                                · rw [if_pos hc4] at h
                                  cases hpop : popNode st3 with
                                  | ub => simp only [hpop] at h; exact PR.noConfusion h
                                  | out => simp only [hpop] at h; exact PR.noConfusion h
                                  | ok st4 =>
                                    simp only [hpop] at h
                                    cases hgt : scanToGtW (c4 :: r4) with
                                    | ub => simp only [hgt] at h; exact PR.noConfusion h
                                    | out => simp only [hgt] at h; exact PR.noConfusion h
                                    | ok w5 =>
                                      simp only [hgt] at h
                                      cases h
                                      exact stInv_pop hpop hinv3
                                · rw [if_neg hc4] at h
                                  by_cases hc4g : c4 = '>'
                                  · rw [if_pos hc4g] at h
                                    cases h
                                    exact hinv3
                                  · rw [if_neg hc4g] at h
                                    cases h
                                    exact hinv3
                    · rw [if_neg hc2sp] at h
                      cases h
                      exact hinv2

/-- The scan loop preserves `stInv`. -/
theorem parseLoop_inv : ∀ (f : Nat) (w : List Char) (st st' : PState),
    parseLoop f w st = PR.ok st' → stInv st → stInv st' := by
  intro f
  induction f with
  | zero => intro w st st' h _; simp [parseLoop] at h
  | succ f ih =>
    intro w st st' h hinv
    cases w with
    | nil => simp [parseLoop] at h
    | cons c rest =>
      rw [parseLoop] at h
      by_cases hn : c = nulChar
      · rw [if_pos hn] at h
        cases h
        exact hinv
      · rw [if_neg hn] at h
        by_cases hsp : isSpaceC c = true
        · rw [if_pos hsp] at h
          exact ih rest st st' h hinv
        · rw [if_neg hsp] at h
          by_cases hlt : c = '<'
          · rw [if_pos hlt] at h
            cases hsk : skipSpacesW rest with
            | ub => simp only [hsk] at h; exact PR.noConfusion h
            | out => simp only [hsk] at h; exact PR.noConfusion h
            | ok w1 =>
              simp only [hsk] at h
              cases hcm : parse_comment w1 with
              | ub => simp only [hcm] at h; exact PR.noConfusion h
              | out => simp only [hcm] at h; exact PR.noConfusion h
              | ok o =>
                cases o with
                | some w2 =>
                  simp only [hcm] at h
                  exact ih w2 st st' h hinv
                | none =>
                  simp only [hcm] at h
                  cases hpi : parse_processing_instruction w1 with
                  | ub => simp only [hpi] at h; exact PR.noConfusion h
                  | out => simp only [hpi] at h; exact PR.noConfusion h
                  | ok o2 =>
                    cases o2 with
                    | some w2 =>
                      simp only [hpi] at h
                      exact ih w2 st st' h hinv
                    | none =>
                      simp only [hpi] at h
                      cases hpt : parse_tag f w1 st with
                      | ub => simp only [hpt] at h; exact PR.noConfusion h
                      | out => simp only [hpt] at h; exact PR.noConfusion h
                      | ok bws =>
                        obtain ⟨ret, w2, st1⟩ := bws
                        simp only [hpt] at h
                        have hinv1 : stInv st1 := parse_tag_inv f w1 st _ hpt hinv
                        cases ret with
                        | true =>
                          simp only [if_true] at h
                          exact ih _ st1 st' h hinv1
                        | false =>
                          simp only [Bool.false_eq_true, if_false] at h
                          exact ih _ st1 st' h hinv1
          · rw [if_neg hlt] at h
            exact ih rest st st' h hinv

/-- Folding the remaining open stack keeps the bottom node's tag. -/
theorem closeStack_tag : ∀ (rest : List XMLNode) (n : XMLNode),
    lastTagRoot (n :: rest) → (closeStack n rest).tag = some ("ROOT") := by
  intro rest
  induction rest with
  | nil =>
    intro n h
    simp only [lastTagRoot] at h
    simpa [closeStack] using h
  | cons p rest' ih =>
    intro n h
    cases p with
    | mk pt ptx pa pch =>
      rw [closeStack]
      apply ih
      have h' : lastTagRoot (XMLNode.mk pt ptx pa pch :: rest') := by
        simpa [lastTagRoot] using h
      exact lastTagRoot_head (by rfl) h'

/-- C10 as amended: `xml_parse_string` has no failure return — whenever it
returns (that is, whenever parsing completes without an out-of-bounds read
or a NULL dereference), the result is the (non-null) synthetic root node,
created with no parent, whose tag is ("ROOT").  (For some inputs the parse
does not return normally, see the counterexample.) -/
theorem c10_amended (xml : List Char) (fuel : Nat) (r : XMLNode)
    (h : xml_parse_string xml fuel = PR.ok r) : r.tag = some ("ROOT") := by
  rw [xml_parse_string] at h
  cases hpl : parseLoop fuel (xml ++ [nulChar]) rootInit with
  | ub => simp only [hpl] at h; exact PR.noConfusion h
  | out => simp only [hpl] at h; exact PR.noConfusion h
  | ok st =>
    simp only [hpl] at h
    have hst : stInv st :=
      parseLoop_inv fuel (xml ++ [nulChar]) rootInit st hpl
        (by simp [stInv, rootInit, lastTagRoot, XMLNode.tag])
    cases hf : finalize st with
    | none => simp only [hf] at h; exact PR.noConfusion h
    | some r' =>
      simp only [hf] at h
      cases h
      obtain ⟨stack, rd⟩ := st
      cases rd with
      | some r0 =>
        simp only [finalize] at hf
        cases hf
        exact hst
      | none =>
        simp only [finalize] at hf
        cases stack with
        | nil => exact Option.noConfusion hf
        | cons n rest =>
          cases hf
          exact closeStack_tag rest n hst

/-- Witness for C10 as amended: the empty input parses to the bare ROOT
node. -/
theorem c10_amended_witness :
    (XMLNode.mk (some ("ROOT")) none [] [] : XMLNode).tag = some ("ROOT") :=
  c10_amended [] 1 (XMLNode.mk (some ("ROOT")) none [] []) rfl

/-- Witness for C6 at a concrete tree and path. -/
theorem c6_find_by_path_witness :
    xml_node_find_by_path
      (XMLNode.mk (some ("ROOT")) none []
        [XMLNode.mk (some ("library")) none []
          [XMLNode.mk (some ("book")) none [] []]])
      "library/book" true =
    PR.ok (findByPathSpec
      (XMLNode.mk (some ("ROOT")) none []
        [XMLNode.mk (some ("library")) none []
          [XMLNode.mk (some ("book")) none [] []]])
      (pathSegs ("library/book")) true) := by
  exact c6_find_by_path _ ("library/book") true rfl

end XmlH
